import Mathlib

/-!
Verification development for the pick-for-me spin-wheel widget.

The spin engine (component `SpinWheel`) is shallowly embedded here: angles are
exact rationals, JavaScript's truncating `%` operator is modelled by `jsMod`,
the asynchronous settle callback of `spin` is collapsed into the settled
outcome, and the random draws (`Math.random()`) are passed in as explicit
parameters.  Rendering, haptics, confetti and share-card code is omitted: it
does not touch the rotation state.
-/

attribute [local semireducible] Rat.mul Rat.add Rat.sub Rat.inv

/-- Truncation toward zero of a rational number, the rounding used by
JavaScript's `%` operator on its operands' quotient. -/
def ratTrunc (q : ℚ) : ℤ := if 0 ≤ q then ⌊q⌋ else ⌈q⌉

/-- JavaScript remainder `a % b`: `a - b * trunc (a / b)`, so the result carries
the sign of the dividend `a`. -/
def jsMod (a b : ℚ) : ℚ := a - b * ratTrunc (a / b)

/-- Source `calculateIndexFromRotation` (SpinWheel): guard `options.length <= 0`
returns 0; otherwise `Math.floor(((360 - (totalRotation % 360)) % 360) /
sliceAngle) % options.length`.  The floored value is nonnegative (proved in
`calculateIndexFromRotation_lt`), so JavaScript's truncating `%` on it agrees
with `Int.emod`, and the result is returned as a natural number. -/
def calculateIndexFromRotation (totalRotation : ℚ) (numOptions : ℕ) : ℕ :=
  if numOptions ≤ 0 then 0
  else
    let sliceAngle : ℚ := 360 / numOptions
    let index : ℤ := ⌊jsMod (360 - jsMod totalRotation 360) 360 / sliceAngle⌋
    (index % (numOptions : ℤ)).toNat

/-- Target-rotation formula, written once in `spin` and once in the
history-highlight effect: `(90 - targetIndex * sliceAngle - sliceAngle / 2 +
360) % 360` with `sliceAngle = 360 / options.length`. -/
def targetRotationFor (numOptions targetIndex : ℕ) : ℚ :=
  let sliceAngle : ℚ := 360 / numOptions
  jsMod (90 - targetIndex * sliceAngle - sliceAngle / 2 + 360) 360

/-- Forward delta computed by `spin`:
`(targetRotation - (rotation % 360) + 360) % 360`. -/
def deltaFor (rotation targetRotation : ℚ) : ℚ :=
  jsMod (targetRotation - jsMod rotation 360 + 360) 360

/-- Rotation state owned by `SpinWheel`: the accumulated angle, the
`isSpinning` flag and the `selectedIndex` (null modelled as `none`). -/
structure EngineState where
  rotation : ℚ
  isSpinning : Bool
  selectedIndex : Option ℕ
deriving DecidableEq

/-- Observable outcome of one `spin()` call: the state after the settle
callback, how many times `onSpinStart` was invoked, and the `(result, index)`
pair passed to `onResult` (`none` when the sink was not invoked). -/
structure SpinOutcome where
  state : EngineState
  spinStartCalls : ℕ
  result : Option (String × ℕ)
deriving DecidableEq

/-- Source `spin` (SpinWheel), collapsed to its settled outcome.  The two
guards (`isSpinning`, `options.length < 2`) return without touching state or
sinks.  An accepted call invokes `onSpinStart` once, draws `targetIndex`
(`Math.floor(Math.random() * options.length)`) and `rand` (the `Math.random()`
inside the `spins` expression), both passed here as parameters, and on settle
stores `totalRotation`, clears `isSpinning`, recomputes the index from the
stored angle and emits `(options[calculatedIndex], calculatedIndex)`. -/
def spinModel (s : EngineState) (options : List String) (targetIndex : ℕ)
    (rand : ℚ) (prefersReducedMotion : Bool) : SpinOutcome :=
  if s.isSpinning then ⟨s, 0, none⟩
  else if options.length < 2 then ⟨s, 0, none⟩
  else
    let targetRotation := targetRotationFor options.length targetIndex
    let deltaRotation := deltaFor s.rotation targetRotation
    let spins : ℚ := if prefersReducedMotion then 4 + rand * (3 / 2) else 5 + rand * 2
    let totalRotation := s.rotation + spins * 360 + deltaRotation
    let calculatedIndex := calculateIndexFromRotation totalRotation options.length
    ⟨⟨totalRotation, false, some calculatedIndex⟩, 1,
      some (options.getD calculatedIndex "", calculatedIndex)⟩

/-! Arithmetic facts about `jsMod` and the rotation-to-index mapping. -/

lemma ratTrunc_eq_floor {q : ℚ} (h : 0 ≤ q) : ratTrunc q = ⌊q⌋ := if_pos h

lemma jsMod_nonneg_eq {a b : ℚ} (ha : 0 ≤ a) (hb : 0 < b) :
    jsMod a b = b * Int.fract (a / b) := by
  have hq : 0 ≤ a / b := div_nonneg ha hb.le
  rw [jsMod, ratTrunc_eq_floor hq, ← Int.self_sub_floor, mul_sub,
    mul_div_cancel₀ _ hb.ne']

lemma jsMod_nonneg_bounds {a b : ℚ} (ha : 0 ≤ a) (hb : 0 < b) :
    0 ≤ jsMod a b ∧ jsMod a b < b := by
  rw [jsMod_nonneg_eq ha hb]
  refine ⟨mul_nonneg hb.le (Int.fract_nonneg _), ?_⟩
  calc b * Int.fract (a / b) < b * 1 :=
        mul_lt_mul_of_pos_left (Int.fract_lt_one _) hb
    _ = b := mul_one b

lemma jsMod_bounds {a b : ℚ} (hb : 0 < b) : -b < jsMod a b ∧ jsMod a b < b := by
  rcases le_or_lt 0 a with ha | ha
  · obtain ⟨h1, h2⟩ := jsMod_nonneg_bounds ha hb
    exact ⟨lt_of_lt_of_le (neg_lt_zero.mpr hb) h1, h2⟩
  · have hx : a / b < 0 := div_neg_of_neg_of_pos ha hb
    rw [jsMod, ratTrunc, if_neg (not_le.mpr hx)]
    have h1 : (a / b : ℚ) ≤ ⌈a / b⌉ := Int.le_ceil _
    have h2 : (⌈a / b⌉ : ℚ) < a / b + 1 := Int.ceil_lt_add_one _
    have hab : b * (a / b) = a := mul_div_cancel₀ _ hb.ne'
    have h3 : b * (⌈a / b⌉ : ℚ) < b * (a / b + 1) := mul_lt_mul_of_pos_left h2 hb
    have h4 : b * (a / b : ℚ) ≤ b * ⌈a / b⌉ := mul_le_mul_of_nonneg_left h1 hb.le
    constructor <;> nlinarith

lemma jsMod_eq_sub (a b : ℚ) : ∃ k : ℤ, jsMod a b = a - b * k := ⟨_, rfl⟩

/-- Normalisation `(360 - (r % 360)) % 360` performed by
`calculateIndexFromRotation` lands on the canonical representative
`360 * fract (-r / 360)` of `-r` modulo 360, for every (possibly negative)
accumulated rotation `r`. -/
lemma norm360 (r : ℚ) :
    jsMod (360 - jsMod r 360) 360 = 360 * Int.fract (-r / 360) := by
  obtain ⟨hlo, hhi⟩ := jsMod_bounds (a := r) (b := 360) (by norm_num)
  have h0 : (0 : ℚ) ≤ 360 - jsMod r 360 := by linarith
  rw [jsMod_nonneg_eq h0 (by norm_num : (0 : ℚ) < 360)]
  congr 1
  obtain ⟨k, hk⟩ := jsMod_eq_sub r 360
  rw [hk]
  have hrw : (360 - (r - 360 * k)) / 360 = -r / 360 + ((k + 1 : ℤ) : ℚ) := by
    push_cast
    ring
  rw [hrw, Int.fract_add_int]

lemma floor_mul_fract (y : ℚ) {n : ℕ} (hn : 1 ≤ n) :
    ⌊(n : ℚ) * Int.fract y⌋ = ⌊(n : ℚ) * y⌋ % (n : ℤ) := by
  have hn0 : (0 : ℚ) < n := by exact_mod_cast hn
  have hfr : (n : ℚ) * Int.fract y = (n : ℚ) * y - (((n : ℤ) * ⌊y⌋ : ℤ) : ℚ) := by
    rw [← Int.self_sub_floor]
    push_cast
    ring
  have hfl : ⌊(n : ℚ) * Int.fract y⌋ = ⌊(n : ℚ) * y⌋ - (n : ℤ) * ⌊y⌋ := by
    rw [hfr, Int.floor_sub_int]
  have hlow : 0 ≤ ⌊(n : ℚ) * y⌋ - (n : ℤ) * ⌊y⌋ := by
    rw [← hfl]
    exact Int.floor_nonneg.mpr (mul_nonneg hn0.le (Int.fract_nonneg y))
  have hhigh : ⌊(n : ℚ) * y⌋ - (n : ℤ) * ⌊y⌋ < (n : ℤ) := by
    rw [← hfl]
    refine Int.floor_lt.mpr ?_
    push_cast
    calc (n : ℚ) * Int.fract y < n * 1 :=
          mul_lt_mul_of_pos_left (Int.fract_lt_one _) hn0
      _ = n := mul_one _
  calc ⌊(n : ℚ) * Int.fract y⌋ = ⌊(n : ℚ) * y⌋ - (n : ℤ) * ⌊y⌋ := hfl
    _ = (⌊(n : ℚ) * y⌋ - (n : ℤ) * ⌊y⌋) % (n : ℤ) :=
        (Int.emod_eq_of_lt hlow hhigh).symm
    _ = (⌊(n : ℚ) * y⌋ - (n : ℤ) * ⌊y⌋ + (n : ℤ) * ⌊y⌋) % (n : ℤ) := by
        rw [Int.add_mul_emod_self_left]
    _ = ⌊(n : ℚ) * y⌋ % (n : ℤ) := by ring_nf

/-- Closed form of the source's rotation-to-index mapping: for `n ≥ 1` options,
`calculateIndexFromRotation r n` is `⌊n * (-r / 360)⌋ mod n`. -/
lemma calcIdx_eq (r : ℚ) {n : ℕ} (hn : 1 ≤ n) :
    (calculateIndexFromRotation r n : ℤ) = ⌊(n : ℚ) * (-r / 360)⌋ % (n : ℤ) := by
  have hn0 : (0 : ℚ) < n := by exact_mod_cast hn
  have hne : (n : ℤ) ≠ 0 := by omega
  simp only [calculateIndexFromRotation, if_neg (by omega : ¬ n ≤ 0)]
  have hdiv : jsMod (360 - jsMod r 360) 360 / ((360 : ℚ) / n)
      = (n : ℚ) * Int.fract (-r / 360) := by
    rw [norm360]
    field_simp
    ring
  rw [hdiv, floor_mul_fract _ hn, Int.emod_emod_of_dvd _ dvd_rfl,
    Int.toNat_of_nonneg (Int.emod_nonneg _ hne)]

/-- Range of the rotation-to-index mapping: strictly below the option count. -/
lemma calculateIndexFromRotation_lt (r : ℚ) {n : ℕ} (hn : 1 ≤ n) :
    calculateIndexFromRotation r n < n := by
  have hne : (n : ℤ) ≠ 0 := by omega
  have h := calcIdx_eq r hn
  have hlt : (calculateIndexFromRotation r n : ℤ) < (n : ℤ) := by
    rw [h]
    exact Int.emod_lt_of_pos _ (by omega)
  exact_mod_cast hlt

/-- Shifting the rotation by a whole number of slices shifts the recovered
index by the opposite amount, modulo the option count. -/
lemma calcIdx_shift (r : ℚ) (k : ℤ) {n : ℕ} (hn : 1 ≤ n) :
    (calculateIndexFromRotation (r + k * (360 / n)) n : ℤ)
      = ((calculateIndexFromRotation r n : ℤ) - k) % (n : ℤ) := by
  have hne : (n : ℚ) ≠ 0 := by positivity
  rw [calcIdx_eq _ hn, calcIdx_eq _ hn]
  have hrw : (n : ℚ) * (-(r + k * (360 / n)) / 360)
      = (n : ℚ) * (-r / 360) + ((-k : ℤ) : ℚ) := by
    field_simp
    ring
  rw [hrw, Int.floor_add_int, ← sub_eq_add_neg]
  rw [Int.sub_emod ⌊(n : ℚ) * (-r / 360)⌋ k,
    Int.sub_emod (⌊(n : ℚ) * (-r / 360)⌋ % (n : ℤ)) k,
    Int.emod_emod_of_dvd _ dvd_rfl]

/-- Target-rotation formula argument is nonnegative, so the outer JavaScript
`%` behaves like a true modulus and the result lies in `[0, 360)`. -/
lemma targetRotationFor_bounds {n t : ℕ} (hn : 1 ≤ n) (ht : t < n) :
    0 ≤ targetRotationFor n t ∧ targetRotationFor n t < 360 := by
  have hn0 : (0 : ℚ) < n := by exact_mod_cast hn
  have hs : (0 : ℚ) < 360 / n := by positivity
  have ht1 : (t : ℚ) ≤ (n : ℚ) - 1 := by
    have : (t : ℚ) + 1 ≤ n := by exact_mod_cast ht
    linarith
  have h2 : (t : ℚ) * (360 / n) ≤ ((n : ℚ) - 1) * (360 / n) :=
    mul_le_mul_of_nonneg_right ht1 hs.le
  have h3 : ((n : ℚ) - 1) * (360 / n) = 360 - 360 / n := by
    field_simp
    ring
  have harg : (0 : ℚ) ≤ 90 - t * (360 / n) - (360 / n) / 2 + 360 := by
    rw [h3] at h2
    linarith
  exact jsMod_nonneg_bounds harg (by norm_num)

/-- Exact value recovered by the inverse mapping from the target rotation: the
chosen index shifted by `⌊(2 - n) / 4⌋` slices, modulo `n`.  The offset
vanishes modulo `n` at `n = 2` but at no larger option count, since then
`⌊(2 - n) / 4⌋` lies strictly between `-n` and `0`. -/
lemma roundTrip_eq {n : ℕ} (t : ℕ) (hn : 1 ≤ n) :
    (calculateIndexFromRotation (targetRotationFor n t) n : ℤ)
      = ((t : ℤ) + ⌊((2 : ℚ) - n) / 4⌋) % (n : ℤ) := by
  have hn0 : (0 : ℚ) < n := by exact_mod_cast hn
  rw [calcIdx_eq _ hn]
  unfold targetRotationFor
  obtain ⟨k, hk⟩ := jsMod_eq_sub (90 - t * (360 / n) - (360 / n) / 2 + 360) 360
  rw [hk]
  have hrw : (n : ℚ) * (-(90 - t * (360 / n) - (360 / n) / 2 + 360 - 360 * k) / 360)
      = ((4 * t + 2 - 5 * n : ℤ) : ℚ) / ((4 : ℕ) : ℚ) + (((n : ℤ) * k : ℤ) : ℚ) := by
    push_cast
    field_simp
    ring
  rw [hrw, Int.floor_add_int, Rat.floor_intCast_div_natCast,
    Int.add_mul_emod_self_left]
  have hfl2 : ⌊((2 : ℚ) - n) / 4⌋ = (2 - (n : ℤ)) / 4 := by
    have : ((2 : ℚ) - n) / 4 = ((2 - (n : ℤ) : ℤ) : ℚ) / ((4 : ℕ) : ℚ) := by
      push_cast
      ring
    rw [this, Rat.floor_intCast_div_natCast]
    norm_num
  rw [hfl2]
  have hc : ((4 : ℕ) : ℤ) = (4 : ℤ) := by norm_num
  have hsplit : (4 * (t : ℤ) + 2 - 5 * n) / (4 : ℤ)
      = (t : ℤ) + (2 - (n : ℤ)) / 4 + (n : ℤ) * (-1) := by
    omega
  rw [hc, hsplit, Int.add_mul_emod_self_left]

/-- Delta computed against a target rotation in `[0, 360)` is itself in
`[0, 360)`: the JavaScript `%` sees a positive argument. -/
lemma deltaFor_bounds {rot tR : ℚ} (htR : 0 ≤ tR) :
    0 ≤ deltaFor rot tR ∧ deltaFor rot tR < 360 := by
  obtain ⟨h1, h2⟩ := jsMod_bounds (a := rot) (b := 360) (by norm_num)
  have harg : (0 : ℚ) ≤ tR - jsMod rot 360 + 360 := by linarith
  exact jsMod_nonneg_bounds harg (by norm_num)

/-- Delta is congruent to `targetRotation - rotation` modulo 360, hence it is
the unique forward delta in `[0, 360)` from the current residue to the
target. -/
lemma deltaFor_congr (rot tR : ℚ) :
    ∃ k : ℤ, deltaFor rot tR = tR - rot + 360 * k := by
  obtain ⟨k₁, hk₁⟩ := jsMod_eq_sub rot 360
  obtain ⟨k₂, hk₂⟩ := jsMod_eq_sub (tR - jsMod rot 360 + 360) 360
  refine ⟨k₁ + 1 - k₂, ?_⟩
  rw [deltaFor] at *
  rw [hk₂, hk₁]
  push_cast
  ring

/-! Reorder synchronisation (the `SpinWheel` effect that watches `options`). -/

/-- JavaScript `Array.prototype.indexOf`: index of the first occurrence, `-1`
when absent. -/
def jsIndexOf : List String → String → ℤ
  | [], _ => -1
  | a :: l, target =>
    if a = target then 0
    else
      let r := jsIndexOf l target
      if r = -1 then -1 else r + 1

lemma jsIndexOf_mem {l : List String} {target : String} (h : target ∈ l) :
    0 ≤ jsIndexOf l target ∧ jsIndexOf l target < l.length ∧
      l.getD (jsIndexOf l target).toNat "" = target := by
  induction l with
  | nil => cases h
  | cons a l ih =>
    by_cases ha : a = target
    · refine ⟨by simp [jsIndexOf, ha], by simp [jsIndexOf, ha], ?_⟩
      simp [jsIndexOf, ha]
    · have hmem : target ∈ l := by
        rcases List.mem_cons.mp h with h1 | h1
        · exact absurd h1.symm ha
        · exact h1
      obtain ⟨h0, hlt, hget⟩ := ih hmem
      have hne : jsIndexOf l target ≠ -1 := by omega
      refine ⟨?_, ?_, ?_⟩
      · simp only [jsIndexOf, if_neg ha, if_neg hne]
        omega
      · simp only [jsIndexOf, if_neg ha, if_neg hne, List.length_cons]
        push_cast
        omega
      · simp only [jsIndexOf, if_neg ha, if_neg hne]
        have htn : (jsIndexOf l target + 1).toNat = (jsIndexOf l target).toNat + 1 := by
          omega
        rw [htn]
        simpa using hget

/-- Source reorder-sync effect in `SpinWheel`: when the option list is
permuted (same length, different contents order) while not spinning, find the
option under the pointer in the previous order, locate it in the new order,
and rotate by `-(newIndex - currentIndex) * sliceAngle` extra degrees.  The
function returns the rotation after the effect ran. -/
def reorderSync (options prevOptions : List String) (rotation : ℚ)
    (isSpinning : Bool) : ℚ :=
  if options.length < 2 then rotation
  else if options.length = prevOptions.length ∧ options ≠ prevOptions ∧
      isSpinning = false then
    let currentIndex := calculateIndexFromRotation rotation options.length
    let currentOption := prevOptions.getD currentIndex ""
    let newIndex := jsIndexOf options currentOption
    if newIndex ≠ -1 ∧ newIndex ≠ (currentIndex : ℤ) then
      let sliceAngle : ℚ := 360 / options.length
      let indexDiff : ℚ := (newIndex : ℚ) - (currentIndex : ℚ)
      rotation + -indexDiff * sliceAngle
    else rotation
  else rotation

/-! History-highlight replay (the `SpinWheel` effect watching `historyHighlight`). -/

/-- Payload of a replay request coming from the result history. -/
structure HistoryHighlight where
  options : List String
  index : ℤ
  requestId : ℤ
deriving DecidableEq

/-- Source snapshot check `historyHighlight.options.length !== options.length
|| !historyHighlight.options.every((opt, i) => opt === options[i])`, here in
positive form: lengths agree and the pointwise comparison succeeds. -/
def optionsMatch (a b : List String) : Bool :=
  a.length == b.length && (a.zip b).all fun p => p.1 == p.2

lemma optionsMatch_iff {a b : List String} : optionsMatch a b = true ↔ a = b := by
  induction a generalizing b with
  | nil => cases b <;> simp [optionsMatch]
  | cons x xs ih =>
    cases b with
    | nil => simp [optionsMatch]
    | cons y ys =>
      simp only [optionsMatch, List.length_cons, List.zip_cons_cons,
        List.all_cons, Bool.and_eq_true, beq_iff_eq] at ih ⊢
      constructor
      · rintro ⟨hlen, hxy, hall⟩
        rw [hxy, ih.mp ⟨by omega, hall⟩]
      · rintro h
        injection h with h1 h2
        subst h1
        subst h2
        exact ⟨rfl, rfl, (ih.mpr rfl).2⟩

/-- Rotation state visible to the history-highlight effect after it runs:
rotation, selected index, last processed request id, and whether
`controls.start` was reached. -/
structure HighlightOutcome where
  rotation : ℚ
  selectedIndex : Option ℕ
  lastRequestId : Option ℤ
  animationStarted : Bool
deriving DecidableEq

/-- Source clamp `Math.min(Math.max(historyHighlight.index, 0),
options.length - 1)` of the replay index, returned as a natural number (it is
nonnegative once at least one option exists). -/
def clampIndex (idx : ℤ) (numOptions : ℕ) : ℕ :=
  (min (max idx 0) ((numOptions : ℤ) - 1)).toNat

/-- Source shorter-direction delta of the history-highlight effect: forward
delta from the doubly-normalised residue `((rotation % 360) + 360) % 360`,
then folded by `if (deltaRotation > 180) deltaRotation -= 360`. -/
def highlightDelta (rotation targetRotation : ℚ) : ℚ :=
  let currentRotationMod := jsMod (jsMod rotation 360 + 360) 360
  let deltaRotation := jsMod (targetRotation - currentRotationMod + 360) 360
  if deltaRotation > 180 then deltaRotation - 360 else deltaRotation

/-- Source history-highlight effect in `SpinWheel`, guards in source order:
null request, spinning, already-processed request id, snapshot mismatch,
fewer than two options — each leaves every piece of state unchanged and starts
no animation.  Otherwise the replay index is clamped to `[0, length - 1]`, the
delta is folded into the shorter direction, and the request id is recorded. -/
def historyEffect (hh : Option HistoryHighlight) (options : List String)
    (rotation : ℚ) (selectedIndex : Option ℕ) (lastRequestId : Option ℤ)
    (isSpinning : Bool) : HighlightOutcome :=
  match hh with
  | none => ⟨rotation, selectedIndex, lastRequestId, false⟩
  | some h =>
    if isSpinning then ⟨rotation, selectedIndex, lastRequestId, false⟩
    else if lastRequestId = some h.requestId then
      ⟨rotation, selectedIndex, lastRequestId, false⟩
    else if optionsMatch h.options options = false then
      ⟨rotation, selectedIndex, lastRequestId, false⟩
    else if options.length < 2 then
      ⟨rotation, selectedIndex, lastRequestId, false⟩
    else
      let targetIndex : ℕ := clampIndex h.index options.length
      let targetRotation := targetRotationFor options.length targetIndex
      let totalRotation := rotation + highlightDelta rotation targetRotation
      ⟨totalRotation, some targetIndex, some h.requestId, true⟩

/-! Option-editor operations (component `OptionEditor`). -/

/-- Source `addOption` (OptionEditor): trim the draft, ignore an empty draft,
refuse a thirteenth option, refuse a label already present, else append. -/
def addOption (options : List String) (newOption : String) : List String :=
  let trimmedOption := newOption.trim
  if trimmedOption = "" then options
  else if 12 ≤ options.length then options
  else if trimmedOption ∈ options then options
  else options ++ [trimmedOption]

/-- Source `removeOption` (OptionEditor): `options.filter((_, i) => i !==
index)` guarded by `options.length > 2` and `index` in range. -/
def removeOption (options : List String) (index : ℕ) : List String :=
  if 2 < options.length ∧ index < options.length then
    (options.enum.filter fun p => p.1 != index).map Prod.snd
  else options

/-- Source `saveEdit` (OptionEditor): require a nonempty trimmed value and a
valid editing index, refuse when the trimmed value already sits at another
position (`options.some((opt, idx) => opt === trimmedValue && idx !==
editingIndex)`), else overwrite the edited slot. -/
def saveEdit (options : List String) (editingIndex : Option ℕ)
    (editValue : String) : List String :=
  match editingIndex with
  | none => options
  | some idx =>
    if editValue.trim ≠ "" ∧ idx < options.length then
      let trimmedValue := editValue.trim
      if options.enum.any fun p => p.2 == trimmedValue && p.1 != idx then options
      else options.set idx trimmedValue
    else options

/-- Invariant maintained by the option editor: between two and twelve options,
pairwise distinct. -/
def editorInvariant (options : List String) : Prop :=
  2 ≤ options.length ∧ options.length ≤ 12 ∧ options.Nodup

instance (options : List String) : Decidable (editorInvariant options) := by
  unfold editorInvariant
  infer_instance

/-! Support lemmas for the option-editor operations. -/

lemma enumFrom_filter_lt (l : List String) (k j : ℕ) (hj : j < k) :
    ((l.enumFrom k).filter fun p => p.1 != j).map Prod.snd = l := by
  induction l generalizing k with
  | nil => simp
  | cons a l ih =>
    have hne : (((k, a) : ℕ × String).1 != j) = true := by
      simp only [bne_iff_ne, ne_eq]
      omega
    simp only [List.enumFrom_cons, List.filter_cons, hne, if_true, List.map_cons]
    rw [ih (k + 1) (by omega)]

lemma enumFrom_filter_eraseIdx (l : List String) (k j : ℕ) (hk : k ≤ j) :
    ((l.enumFrom k).filter fun p => p.1 != j).map Prod.snd = l.eraseIdx (j - k) := by
  induction l generalizing k with
  | nil => simp
  | cons a l ih =>
    by_cases hkj : k = j
    · subst hkj
      have hme : (((k, a) : ℕ × String).1 != k) = false := by simp
      simp only [List.enumFrom_cons, List.filter_cons, hme, Bool.false_eq_true,
        if_false, Nat.sub_self, List.eraseIdx_cons_zero]
      exact enumFrom_filter_lt l (k + 1) k (by omega)
    · have hne : (((k, a) : ℕ × String).1 != j) = true := by
        simp only [bne_iff_ne, ne_eq]
        omega
      have hjk : j - k = (j - (k + 1)) + 1 := by omega
      simp only [List.enumFrom_cons, List.filter_cons, hne, if_true, List.map_cons,
        hjk, List.eraseIdx_cons_succ]
      rw [ih (k + 1) (by omega)]

/-- Under its guard, `removeOption` deletes exactly the requested position. -/
lemma removeOption_eq_eraseIdx {options : List String} {index : ℕ}
    (h2 : 2 < options.length) (hidx : index < options.length) :
    removeOption options index = options.eraseIdx index := by
  rw [removeOption, if_pos ⟨h2, hidx⟩]
  simpa using enumFrom_filter_eraseIdx options 0 index (by omega)

lemma saveEdit_no_other {options : List String} {idx : ℕ} {v : String}
    (h : (options.enum.any fun p => p.2 == v && p.1 != idx) = false) :
    ∀ i, i < options.length → i ≠ idx → options[i]? ≠ some v := by
  intro i hi hne heq
  rw [List.any_eq_false] at h
  have hmem : (i, v) ∈ options.enum := by
    rw [List.mk_mem_enum_iff_getElem?]
    exact heq
  have hcontr := h _ hmem
  simp [bne_iff_ne, hne] at hcontr

lemma nodup_set_of_no_other {l : List String} {idx : ℕ} {v : String}
    (hnd : l.Nodup)
    (hno : ∀ i, i < l.length → i ≠ idx → l[i]? ≠ some v) :
    (l.set idx v).Nodup := by
  rw [List.nodup_iff_injective_getElem]
  rintro ⟨i, hi⟩ ⟨j, hj⟩ hij
  simp only [List.length_set] at hi hj
  simp only [List.getElem_set] at hij
  by_cases hi' : idx = i <;> by_cases hj' : idx = j
  · apply Fin.ext
    show i = j
    omega
  · exfalso
    rw [if_pos hi', if_neg hj'] at hij
    refine hno j hj (fun hjj => hj' hjj.symm) ?_
    rw [List.getElem?_eq_getElem hj]
    exact congrArg some hij.symm
  · exfalso
    rw [if_neg hi', if_pos hj'] at hij
    refine hno i hi (fun hii => hi' hii.symm) ?_
    rw [List.getElem?_eq_getElem hi]
    exact congrArg some hij
  · rw [if_neg hi', if_neg hj'] at hij
    exact Fin.ext ((List.Nodup.getElem_inj_iff hnd).mp hij)

lemma clampIndex_lt {idx : ℤ} {n : ℕ} (hn : 1 ≤ n) : clampIndex idx n < n := by
  unfold clampIndex
  have h2 : 0 ≤ min (max idx 0) ((n : ℤ) - 1) :=
    le_min (le_max_right _ _) (by omega)
  omega

lemma highlightDelta_bounds {rotation targetRotation : ℚ}
    (h0 : 0 ≤ targetRotation) :
    -180 < highlightDelta rotation targetRotation ∧
      highlightDelta rotation targetRotation ≤ 180 := by
  simp only [highlightDelta]
  obtain ⟨hm1, hm2⟩ := jsMod_bounds (a := rotation) (b := 360) (by norm_num)
  obtain ⟨hc1, hc2⟩ := jsMod_nonneg_bounds
    (a := jsMod rotation 360 + 360) (b := 360) (by linarith) (by norm_num)
  obtain ⟨hd1, hd2⟩ := jsMod_nonneg_bounds
    (a := targetRotation - jsMod (jsMod rotation 360 + 360) 360 + 360) (b := 360)
    (by linarith) (by norm_num)
  split_ifs with hgt
  · constructor <;> linarith
  · constructor <;> linarith

lemma getD_eq_getElem_of_lt (l : List String) {i : ℕ} (h : i < l.length) :
    l.getD i "" = l[i] := by
  rw [List.getD_eq_getElem?_getD, List.getElem?_eq_getElem h, Option.getD_some]

/-! Claim theorems. -/

/-- Claim C5: calling `spin()` while a spin is already in flight is a silent
no-op: rotation, spinning flag and selected index are unchanged and neither
the spin-started sink nor the result sink is invoked. -/
theorem spin_busy_is_noop (s : EngineState) (options : List String)
    (targetIndex : ℕ) (rand : ℚ) (rm : Bool) (h : s.isSpinning = true) :
    spinModel s options targetIndex rand rm = ⟨s, 0, none⟩ := by
  simp [spinModel, h]

/-- Witness for C5 at a concrete in-flight state. -/
theorem spin_busy_is_noop_witness :
    spinModel ⟨0, true, none⟩ ["A", "B"] 0 0 false = ⟨⟨0, true, none⟩, 0, none⟩ :=
  spin_busy_is_noop ⟨0, true, none⟩ ["A", "B"] 0 0 false rfl

/-- Claim C6: with zero or one option, `spin()` is rejected before any angle
or index computation: the state is returned untouched and no sink fires. -/
theorem spin_degenerate_is_noop (s : EngineState) (options : List String)
    (targetIndex : ℕ) (rand : ℚ) (rm : Bool) (h : options.length < 2) :
    spinModel s options targetIndex rand rm = ⟨s, 0, none⟩ := by
  cases hs : s.isSpinning <;> simp [spinModel, hs, h]

/-- Witness for C6 with a single option. -/
theorem spin_degenerate_is_noop_witness :
    spinModel ⟨5, false, some 0⟩ ["A"] 0 0 false = ⟨⟨5, false, some 0⟩, 0, none⟩ :=
  spin_degenerate_is_noop ⟨5, false, some 0⟩ ["A"] 0 0 false (by decide)

/-- Claim C7: the spin-started callback runs exactly once per `spin()` call
that passes both the busy guard and the two-option guard (synchronously, ahead
of the animation in the sequential model), and never on a rejected call. -/
theorem spin_start_sink_count (s : EngineState) (options : List String)
    (targetIndex : ℕ) (rand : ℚ) (rm : Bool) :
    (spinModel s options targetIndex rand rm).spinStartCalls =
      if s.isSpinning = false ∧ 2 ≤ options.length then 1 else 0 := by
  cases hs : s.isSpinning
  · rcases Nat.lt_or_ge options.length 2 with hlen | hlen
    · simp only [spinModel, hs, Bool.false_eq_true, if_false, if_pos hlen]
      rw [if_neg (fun hc => absurd hc.2 (by omega))]
    · simp only [spinModel, hs, Bool.false_eq_true, if_false,
        if_neg (by omega : ¬ options.length < 2)]
      rw [if_pos ⟨trivial, hlen⟩]
  · simp only [spinModel, hs]
    rw [if_pos trivial, if_neg (fun hc => Bool.noConfusion hc.1)]

/-- Claim C1 counterexample: at four options `["A", "B", "C", "D"]`, rotation
0, drawn target index 0 and five whole extra rotations (`rand = 0`), the spin
settles on selected index 3, not on the drawn target index 0. -/
theorem spin_roundtrip_counterexample :
    (spinModel ⟨0, false, none⟩ ["A", "B", "C", "D"] 0 0 false).state.selectedIndex
        ≠ some 0 ∧
    (spinModel ⟨0, false, none⟩ ["A", "B", "C", "D"] 0 0 false).state.selectedIndex
        = some 3 := by
  constructor
  · decide
  · decide

/-- Claim C1 (amended): an accepted spin, at settle, stores the terminal angle
as the rotation, clears the spinning flag, recomputes `selectedIndex` from the
stored terminal angle via the inverse mapping, this index lies in `[0, N)`,
and `(options[selectedIndex], selectedIndex)` is emitted to the result sink —
but the recomputed index need not equal the internally drawn target index
(the forward target-angle formula aims a quarter-turn away from the pointer
read by the inverse mapping, and the extra-rotation count is fractional). -/
theorem spin_settle_amended (s : EngineState) (options : List String)
    (targetIndex : ℕ) (rand : ℚ) (rm : Bool) (hbusy : s.isSpinning = false)
    (hlen : 2 ≤ options.length) :
    (spinModel s options targetIndex rand rm).state.isSpinning = false ∧
    (spinModel s options targetIndex rand rm).state.selectedIndex =
      some (calculateIndexFromRotation
        (spinModel s options targetIndex rand rm).state.rotation options.length) ∧
    calculateIndexFromRotation
        (spinModel s options targetIndex rand rm).state.rotation options.length
      < options.length ∧
    (spinModel s options targetIndex rand rm).result =
      some (options.getD (calculateIndexFromRotation
          (spinModel s options targetIndex rand rm).state.rotation options.length) "",
        calculateIndexFromRotation
          (spinModel s options targetIndex rand rm).state.rotation options.length) := by
  have hn1 : 1 ≤ options.length := by omega
  simp only [spinModel, hbusy, Bool.false_eq_true, if_false,
    if_neg (by omega : ¬ options.length < 2)]
  refine ⟨?_, ?_, calculateIndexFromRotation_lt _ hn1, ?_⟩ <;> trivial

/-- Witness for the amended C1 at two options. -/
theorem spin_settle_amended_witness :
    (spinModel ⟨0, false, none⟩ ["A", "B"] 1 0 false).state.isSpinning = false ∧
    (spinModel ⟨0, false, none⟩ ["A", "B"] 1 0 false).state.selectedIndex =
      some (calculateIndexFromRotation
        (spinModel ⟨0, false, none⟩ ["A", "B"] 1 0 false).state.rotation 2) ∧
    calculateIndexFromRotation
        (spinModel ⟨0, false, none⟩ ["A", "B"] 1 0 false).state.rotation 2 < 2 ∧
    (spinModel ⟨0, false, none⟩ ["A", "B"] 1 0 false).result =
      some (["A", "B"].getD (calculateIndexFromRotation
          (spinModel ⟨0, false, none⟩ ["A", "B"] 1 0 false).state.rotation 2) "",
        calculateIndexFromRotation
          (spinModel ⟨0, false, none⟩ ["A", "B"] 1 0 false).state.rotation 2) :=
  spin_settle_amended ⟨0, false, none⟩ ["A", "B"] 1 0 false rfl (by decide)

/-- Claim C2 counterexample: with four options and target index 0 the forward
formula gives 45°, and the inverse mapping applied to it returns 3, not 0. -/
theorem forward_inverse_counterexample :
    calculateIndexFromRotation (targetRotationFor 4 0) 4 ≠ 0 ∧
    calculateIndexFromRotation (targetRotationFor 4 0) 4 = 3 := by
  constructor
  · decide
  · decide

/-- Claim C2 (amended): applying the inverse mapping to `targetRotation`
returns not `targetIndex` but `targetIndex + ⌊(2 - N) / 4⌋` modulo `N`; the
two agree exactly when `N = 2`. -/
theorem forward_inverse_amended (n t : ℕ) (hn : 2 ≤ n) (ht : t < n) :
    (calculateIndexFromRotation (targetRotationFor n t) n : ℤ)
        = ((t : ℤ) + ⌊((2 : ℚ) - n) / 4⌋) % (n : ℤ) ∧
      (calculateIndexFromRotation (targetRotationFor n t) n = t ↔ n = 2) := by
  have hn1 : 1 ≤ n := by omega
  have hchar := roundTrip_eq t hn1
  refine ⟨hchar, ?_, ?_⟩
  · -- recovered index equal to the target forces the offset to vanish
    intro heq
    rw [heq] at hchar
    set m : ℤ := ⌊((2 : ℚ) - n) / 4⌋ with hm
    have hm0 : m ≤ 0 := by
      rw [hm]
      refine Int.floor_nonpos ?_
      have : (2 : ℚ) ≤ n := by exact_mod_cast hn
      linarith
    have hmlo : -(n : ℤ) < m := by
      rw [hm]
      have h1 : ((-(n : ℤ) + 1 : ℤ) : ℚ) ≤ ((2 : ℚ) - n) / 4 := by
        push_cast
        have : (2 : ℚ) ≤ n := by exact_mod_cast hn
        nlinarith
      have := Int.le_floor.mpr h1
      omega
    have hts : ((t : ℤ)) % (n : ℤ) = (t : ℤ) :=
      Int.emod_eq_of_lt (by omega) (by exact_mod_cast ht)
    rcases le_or_lt 0 ((t : ℤ) + m) with hpos | hneg
    · have hme : ((t : ℤ) + m) % (n : ℤ) = (t : ℤ) + m :=
        Int.emod_eq_of_lt hpos (by
          have : (t : ℤ) < n := by exact_mod_cast ht
          omega)
      have hmz : m = 0 := by omega
      rw [hm] at hmz
      have h01 := Int.floor_eq_zero_iff.mp hmz
      rw [Set.mem_Ico] at h01
      have h0 : (0 : ℚ) ≤ ((2 : ℚ) - n) / 4 := h01.1
      have hle2 : (n : ℚ) ≤ 2 := by linarith
      have : n ≤ 2 := by exact_mod_cast hle2
      omega
    · exfalso
      have hshift : ((t : ℤ) + m) % (n : ℤ) = (t : ℤ) + m + n := by
        have h1 : ((t : ℤ) + m + n) % (n : ℤ) = ((t : ℤ) + m) % (n : ℤ) :=
          Int.add_emod_self
        rw [← h1]
        refine Int.emod_eq_of_lt (by omega) (by
          have : (t : ℤ) < n := by exact_mod_cast ht
          omega)
      have : (t : ℤ) < n := by exact_mod_cast ht
      omega
  · -- at two options the offset is zero and the round trip is exact
    intro hn2
    subst hn2
    have hz : ⌊((2 : ℚ) - (2 : ℕ)) / 4⌋ = 0 := by norm_num
    rw [hz, add_zero] at hchar
    have hts : ((t : ℤ)) % ((2 : ℕ) : ℤ) = (t : ℤ) :=
      Int.emod_eq_of_lt (by omega) (by exact_mod_cast ht)
    rw [hts] at hchar
    exact_mod_cast hchar

/-- Witness for the amended C2 at four options and target index 0 (offset
`⌊-1/2⌋ = -1`, recovered index `(0 - 1) mod 4 = 3 ≠ 0`). -/
theorem forward_inverse_amended_witness :
    ((calculateIndexFromRotation (targetRotationFor 4 0) 4 : ℤ)
        = ((0 : ℤ) + ⌊((2 : ℚ) - (4 : ℕ)) / 4⌋) % ((4 : ℕ) : ℤ) ∧
      (calculateIndexFromRotation (targetRotationFor 4 0) 4 = 0 ↔ (4 : ℕ) = 2)) :=
  forward_inverse_amended 4 0 (by decide) (by decide)

/-- Claim C3 counterexample: with `rand = 1/4` the spin draws 5.5 extra turns,
so the terminal angle 2025 is not `currentAngle + 360k + delta` for any whole
`k` (it would force `360k = 1980`). -/
theorem spin_whole_rotations_counterexample :
    ¬ ∃ k : ℤ, (spinModel ⟨0, false, none⟩ ["A", "B", "C", "D"] 0 (1 / 4)
        false).state.rotation
      = 0 + 360 * (k : ℚ) + deltaFor 0 (targetRotationFor 4 0) := by
  rintro ⟨k, hk⟩
  have h1 : (spinModel ⟨0, false, none⟩ ["A", "B", "C", "D"] 0 (1 / 4)
      false).state.rotation = 2025 := by decide
  have h2 : deltaFor 0 (targetRotationFor 4 0) = 45 := by decide
  rw [h1, h2] at hk
  have h3 : (360 : ℚ) * k = 1980 := by linarith
  have h4 : ((360 * k : ℤ) : ℚ) = ((1980 : ℤ) : ℚ) := by push_cast; linarith
  have h5 : (360 * k : ℤ) = 1980 := by exact_mod_cast h4
  omega

/-- Claim C3 (amended): every accepted spin computes its terminal angle as
`currentAngle + 360 * spins + delta`, where `delta` is the minimal forward
delta in `[0, 360)` congruent to `targetRotation - currentAngle`, and `spins`
is a real number drawn from `[5, 7)` (`[4, 5.5)` under reduced motion) rather
than a whole count; whenever the draw does land on a whole number, the
terminal angle is congruent to `targetRotation` modulo 360. -/
theorem spin_terminal_angle_amended (s : EngineState) (options : List String)
    (targetIndex : ℕ) (rand : ℚ) (rm : Bool) (hbusy : s.isSpinning = false)
    (hlen : 2 ≤ options.length) (ht : targetIndex < options.length)
    (hr0 : 0 ≤ rand) (hr1 : rand < 1) :
    ∃ spins : ℚ,
      (spinModel s options targetIndex rand rm).state.rotation
          = s.rotation + spins * 360
            + deltaFor s.rotation (targetRotationFor options.length targetIndex) ∧
      (if rm then 4 ≤ spins ∧ spins < 11 / 2 else 5 ≤ spins ∧ spins < 7) ∧
      0 ≤ deltaFor s.rotation (targetRotationFor options.length targetIndex) ∧
      deltaFor s.rotation (targetRotationFor options.length targetIndex) < 360 ∧
      (∃ j : ℤ, deltaFor s.rotation (targetRotationFor options.length targetIndex)
          = targetRotationFor options.length targetIndex - s.rotation + 360 * j) ∧
      ∀ k : ℤ, spins = k →
        ∃ m : ℤ, (spinModel s options targetIndex rand rm).state.rotation
            = targetRotationFor options.length targetIndex + 360 * m := by
  have hn1 : 1 ≤ options.length := by omega
  have htR0 := (targetRotationFor_bounds hn1 ht).1
  obtain ⟨hd0, hd1⟩ := @deltaFor_bounds s.rotation
    (targetRotationFor options.length targetIndex) htR0
  obtain ⟨j, hj⟩ := deltaFor_congr s.rotation
    (targetRotationFor options.length targetIndex)
  have hrot : (spinModel s options targetIndex rand rm).state.rotation
      = s.rotation + (if rm then 4 + rand * (3 / 2) else 5 + rand * 2) * 360
        + deltaFor s.rotation (targetRotationFor options.length targetIndex) := by
    simp only [spinModel, hbusy, Bool.false_eq_true, if_false,
      if_neg (by omega : ¬ options.length < 2)]
  refine ⟨if rm then 4 + rand * (3 / 2) else 5 + rand * 2, hrot, ?_, hd0, hd1,
    ⟨j, hj⟩, ?_⟩
  · cases rm
    · simp only [if_false, Bool.false_eq_true]
      constructor <;> nlinarith
    · simp only [if_true]
      constructor <;> nlinarith
  · intro k hk
    refine ⟨k + j, ?_⟩
    rw [hrot, hk, hj]
    push_cast
    ring

/-- Witness for the amended C3 at two options, target 0, `rand = 0`. -/
theorem spin_terminal_angle_amended_witness :
    ∃ spins : ℚ,
      (spinModel ⟨0, false, none⟩ ["A", "B"] 0 0 false).state.rotation
          = 0 + spins * 360 + deltaFor 0 (targetRotationFor 2 0) ∧
      (if false then 4 ≤ spins ∧ spins < 11 / 2 else 5 ≤ spins ∧ spins < 7) ∧
      0 ≤ deltaFor 0 (targetRotationFor 2 0) ∧
      deltaFor 0 (targetRotationFor 2 0) < 360 ∧
      (∃ j : ℤ, deltaFor 0 (targetRotationFor 2 0)
          = targetRotationFor 2 0 - 0 + 360 * j) ∧
      ∀ k : ℤ, spins = k →
        ∃ m : ℤ, (spinModel ⟨0, false, none⟩ ["A", "B"] 0 0 false).state.rotation
            = targetRotationFor 2 0 + 360 * m :=
  spin_terminal_angle_amended ⟨0, false, none⟩ ["A", "B"] 0 0 false rfl
    (by decide) (by decide) (by norm_num) (by norm_num)

/-- Claim C4: a reorder applied while not spinning (same length, same multiset
of labels, different order) keeps the label under the pointer: the label the
inverse mapping recovers after the `-(newIndex - currentIndex) * (360/N)`
adjustment equals the label recovered before the reorder. -/
theorem reorder_preserves_pointer_label (options prevOptions : List String)
    (rotation : ℚ) (hperm : prevOptions.Perm options)
    (hlen : 2 ≤ options.length) :
    options.getD (calculateIndexFromRotation
        (reorderSync options prevOptions rotation false) options.length) ""
      = prevOptions.getD (calculateIndexFromRotation rotation options.length) "" := by
  have hn1 : 1 ≤ options.length := by omega
  have hleq : prevOptions.length = options.length := hperm.length_eq
  have hilt : calculateIndexFromRotation rotation options.length < options.length :=
    calculateIndexFromRotation_lt rotation hn1
  by_cases heq : options = prevOptions
  · have hval : reorderSync options prevOptions rotation false = rotation := by
      unfold reorderSync
      rw [if_neg (show ¬ options.length < 2 by omega),
        if_neg (show ¬ (options.length = prevOptions.length ∧
          options ≠ prevOptions ∧ (false : Bool) = false) from fun hc => hc.2.1 heq)]
    rw [hval, heq]
  · have hiltp : calculateIndexFromRotation rotation options.length
        < prevOptions.length := by omega
    have hmemp : prevOptions.getD
        (calculateIndexFromRotation rotation options.length) "" ∈ prevOptions := by
      rw [getD_eq_getElem_of_lt prevOptions hiltp]
      exact List.getElem_mem _
    have hmem : prevOptions.getD
        (calculateIndexFromRotation rotation options.length) "" ∈ options :=
      hperm.mem_iff.mp hmemp
    obtain ⟨hj0, hjlt, hjget⟩ := jsIndexOf_mem hmem
    by_cases hji : jsIndexOf options (prevOptions.getD
          (calculateIndexFromRotation rotation options.length) "")
        = ((calculateIndexFromRotation rotation options.length : ℕ) : ℤ)
    · have hval : reorderSync options prevOptions rotation false = rotation := by
        unfold reorderSync
        rw [if_neg (show ¬ options.length < 2 by omega),
          if_pos (show options.length = prevOptions.length ∧
            options ≠ prevOptions ∧ (false : Bool) = false from ⟨hleq.symm, heq, rfl⟩)]
        rw [if_neg (fun hc => hc.2 hji)]
      rw [hval]
      have hieq : calculateIndexFromRotation rotation options.length
          = (jsIndexOf options (prevOptions.getD
              (calculateIndexFromRotation rotation options.length) "")).toNat := by
        omega
      nth_rewrite 1 [hieq]
      exact hjget
    · have hval : reorderSync options prevOptions rotation false
          = rotation + -((jsIndexOf options (prevOptions.getD
                (calculateIndexFromRotation rotation options.length) "") : ℚ)
              - (calculateIndexFromRotation rotation options.length : ℚ))
            * (360 / options.length) := by
        unfold reorderSync
        rw [if_neg (show ¬ options.length < 2 by omega),
          if_pos (show options.length = prevOptions.length ∧
            options ≠ prevOptions ∧ (false : Bool) = false from ⟨hleq.symm, heq, rfl⟩)]
        rw [if_pos (show jsIndexOf options (prevOptions.getD
              (calculateIndexFromRotation rotation options.length) "") ≠ -1 ∧
            jsIndexOf options (prevOptions.getD
              (calculateIndexFromRotation rotation options.length) "")
              ≠ ((calculateIndexFromRotation rotation options.length : ℕ) : ℤ)
            from ⟨by omega, hji⟩)]
      rw [hval]
      have hcast : rotation + -((jsIndexOf options (prevOptions.getD
              (calculateIndexFromRotation rotation options.length) "") : ℚ)
            - (calculateIndexFromRotation rotation options.length : ℚ))
          * (360 / options.length)
          = rotation + ((-(jsIndexOf options (prevOptions.getD
                (calculateIndexFromRotation rotation options.length) "")
              - (calculateIndexFromRotation rotation options.length : ℤ)) : ℤ) : ℚ)
            * (360 / options.length) := by
        push_cast
        ring
      rw [hcast]
      have hjn : (calculateIndexFromRotation
          (rotation + ((-(jsIndexOf options (prevOptions.getD
              (calculateIndexFromRotation rotation options.length) "")
            - (calculateIndexFromRotation rotation options.length : ℤ)) : ℤ) : ℚ)
            * (360 / options.length)) options.length : ℤ)
          = jsIndexOf options (prevOptions.getD
              (calculateIndexFromRotation rotation options.length) "") := by
        rw [calcIdx_shift rotation _ hn1]
        have hsimp : ((calculateIndexFromRotation rotation options.length : ℤ)
            - -(jsIndexOf options (prevOptions.getD
                (calculateIndexFromRotation rotation options.length) "")
              - (calculateIndexFromRotation rotation options.length : ℤ)))
            = jsIndexOf options (prevOptions.getD
                (calculateIndexFromRotation rotation options.length) "") := by
          ring
        rw [hsimp, Int.emod_eq_of_lt hj0 hjlt]
      have hnat : calculateIndexFromRotation
          (rotation + ((-(jsIndexOf options (prevOptions.getD
              (calculateIndexFromRotation rotation options.length) "")
            - (calculateIndexFromRotation rotation options.length : ℤ)) : ℤ) : ℚ)
            * (360 / options.length)) options.length
          = (jsIndexOf options (prevOptions.getD
              (calculateIndexFromRotation rotation options.length) "")).toNat := by
        omega
      rw [hnat]
      exact hjget

/-- Witness for C4: reorder `["A","B","C","D"] → ["C","A","B","D"]` at angle
1935 (pointer on "C"); after the adjustment the pointer still reads "C". -/
theorem reorder_preserves_pointer_label_witness :
    ["C", "A", "B", "D"].getD (calculateIndexFromRotation
        (reorderSync ["C", "A", "B", "D"] ["A", "B", "C", "D"] 1935 false) 4) ""
      = ["A", "B", "C", "D"].getD (calculateIndexFromRotation 1935 4) "" :=
  reorder_preserves_pointer_label ["C", "A", "B", "D"] ["A", "B", "C", "D"] 1935
    (by decide) (by decide)

/-- Claim C8: a replay request whose snapshot differs from the current option
list (in order or contents) is silently ignored: rotation, selected index and
the last-request marker are unchanged and no animation is started. -/
theorem stale_replay_ignored (h : HistoryHighlight) (options : List String)
    (rotation : ℚ) (selectedIndex : Option ℕ) (lastRequestId : Option ℤ)
    (isSpinning : Bool) (hmis : h.options ≠ options) :
    historyEffect (some h) options rotation selectedIndex lastRequestId isSpinning
      = ⟨rotation, selectedIndex, lastRequestId, false⟩ := by
  have hm : optionsMatch h.options options = false := by
    cases hb : optionsMatch h.options options
    · rfl
    · exact absurd (optionsMatch_iff.mp hb) hmis
  unfold historyEffect
  dsimp only
  by_cases h1 : isSpinning = true
  · rw [if_pos h1]
  · rw [if_neg h1]
    by_cases h2 : lastRequestId = some h.requestId
    · rw [if_pos h2]
    · rw [if_neg h2, if_pos hm]

/-- Witness for C8: stale snapshot `["A"]` against current `["A", "B"]`. -/
theorem stale_replay_ignored_witness :
    historyEffect (some ⟨["A"], 0, 1⟩) ["A", "B"] 0 none none false
      = ⟨0, none, none, false⟩ :=
  stale_replay_ignored ⟨["A"], 0, 1⟩ ["A", "B"] 0 none none false (by decide)

/-- Claim C9: a fresh replay request with a matching snapshot over at least
two options is accepted even when its index is out of range: the index is
clamped to `[0, N - 1]`, `selectedIndex` becomes the clamped value, the
request id is recorded, an animation starts, and the applied rotation delta
lies in the shorter direction `(-180, 180]`. -/
theorem replay_clamps_and_takes_shorter_arc (h : HistoryHighlight)
    (options : List String) (rotation : ℚ) (selectedIndex : Option ℕ)
    (lastRequestId : Option ℤ) (hmatch : h.options = options)
    (hreq : lastRequestId ≠ some h.requestId) (hlen : 2 ≤ options.length) :
    (historyEffect (some h) options rotation selectedIndex lastRequestId
        false).selectedIndex = some (clampIndex h.index options.length) ∧
    ((clampIndex h.index options.length : ℤ)
        = min (max h.index 0) ((options.length : ℤ) - 1)) ∧
    clampIndex h.index options.length < options.length ∧
    (historyEffect (some h) options rotation selectedIndex lastRequestId
        false).lastRequestId = some h.requestId ∧
    (historyEffect (some h) options rotation selectedIndex lastRequestId
        false).animationStarted = true ∧
    -180 < (historyEffect (some h) options rotation selectedIndex lastRequestId
        false).rotation - rotation ∧
    (historyEffect (some h) options rotation selectedIndex lastRequestId
        false).rotation - rotation ≤ 180 := by
  have hn1 : 1 ≤ options.length := by omega
  have hmT : optionsMatch h.options options = true := optionsMatch_iff.mpr hmatch
  have hval : historyEffect (some h) options rotation selectedIndex lastRequestId
      false = ⟨rotation + highlightDelta rotation
          (targetRotationFor options.length (clampIndex h.index options.length)),
        some (clampIndex h.index options.length), some h.requestId, true⟩ := by
    unfold historyEffect
    dsimp only
    rw [if_neg (show ¬ (false : Bool) = true by simp), if_neg hreq,
      if_neg (show ¬ optionsMatch h.options options = false by simp [hmT]),
      if_neg (show ¬ options.length < 2 by omega)]
  have hclt : clampIndex h.index options.length < options.length :=
    clampIndex_lt hn1
  have htR := (targetRotationFor_bounds hn1 hclt).1
  obtain ⟨hdlo, hdhi⟩ := @highlightDelta_bounds rotation
    (targetRotationFor options.length (clampIndex h.index options.length)) htR
  rw [hval]
  refine ⟨rfl, ?_, hclt, rfl, rfl, ?_, ?_⟩
  · unfold clampIndex
    rw [Int.toNat_of_nonneg (le_min (le_max_right _ _) (by omega))]
  · simp only
    linarith
  · simp only
    linarith

/-- Witness for C9: replay index 7 over two options is clamped to 1 and the
delta stays in the shorter arc. -/
theorem replay_clamps_and_takes_shorter_arc_witness :
    (historyEffect (some ⟨["A", "B"], 7, 1⟩) ["A", "B"] 0 none none
        false).selectedIndex = some (clampIndex 7 2) ∧
    ((clampIndex 7 2 : ℤ) = min (max (7 : ℤ) 0) (((2 : ℕ) : ℤ) - 1)) ∧
    clampIndex 7 2 < 2 ∧
    (historyEffect (some ⟨["A", "B"], 7, 1⟩) ["A", "B"] 0 none none
        false).lastRequestId = some 1 ∧
    (historyEffect (some ⟨["A", "B"], 7, 1⟩) ["A", "B"] 0 none none
        false).animationStarted = true ∧
    -180 < (historyEffect (some ⟨["A", "B"], 7, 1⟩) ["A", "B"] 0 none none
        false).rotation - 0 ∧
    (historyEffect (some ⟨["A", "B"], 7, 1⟩) ["A", "B"] 0 none none
        false).rotation - 0 ≤ 180 :=
  replay_clamps_and_takes_shorter_arc ⟨["A", "B"], 7, 1⟩ ["A", "B"] 0 none none
    rfl (by decide) (by decide)

/-- Claim C10: starting from a list of two to twelve pairwise-distinct labels,
each option-editor mutation preserves that invariant: `addOption` refuses a
thirteenth or duplicate label, `removeOption` refuses to drop below two
entries, `saveEdit` refuses to rename onto a label held at another position. -/
theorem editor_mutations_preserve_invariant (options : List String)
    (draft : String) (index : ℕ) (editingIndex : Option ℕ) (editValue : String)
    (hinv : editorInvariant options) :
    editorInvariant (addOption options draft) ∧
    editorInvariant (removeOption options index) ∧
    editorInvariant (saveEdit options editingIndex editValue) := by
  obtain ⟨hlo, hhi, hnd⟩ := hinv
  refine ⟨?_, ?_, ?_⟩
  · unfold addOption
    dsimp only
    split_ifs with he hmax hdup
    · exact ⟨hlo, hhi, hnd⟩
    · exact ⟨hlo, hhi, hnd⟩
    · exact ⟨hlo, hhi, hnd⟩
    · refine ⟨?_, ?_, ?_⟩
      · rw [List.length_append]
        omega
      · rw [List.length_append]
        simp only [List.length_singleton]
        omega
      · rw [List.nodup_append]
        exact ⟨hnd, List.nodup_singleton _, fun a ha hb => by
          rw [List.mem_singleton] at hb
          exact hdup (hb ▸ ha)⟩
  · by_cases hg : 2 < options.length ∧ index < options.length
    · rw [removeOption_eq_eraseIdx hg.1 hg.2]
      refine ⟨?_, ?_, ?_⟩
      · rw [List.length_eraseIdx_of_lt hg.2]
        omega
      · rw [List.length_eraseIdx_of_lt hg.2]
        omega
      · exact List.Nodup.sublist (List.eraseIdx_sublist _ _) hnd
    · rw [removeOption, if_neg hg]
      exact ⟨hlo, hhi, hnd⟩
  · unfold saveEdit
    cases editingIndex with
    | none => exact ⟨hlo, hhi, hnd⟩
    | some idx =>
      dsimp only
      split_ifs with hg hdup
      · exact ⟨hlo, hhi, hnd⟩
      · refine ⟨?_, ?_, ?_⟩
        · rw [List.length_set]
          omega
        · rw [List.length_set]
          omega
        · have hb : (options.enum.any fun p =>
              p.2 == editValue.trim && p.1 != idx) = false := by
            cases hx : options.enum.any fun p =>
                p.2 == editValue.trim && p.1 != idx
            · rfl
            · exact absurd hx hdup
          exact nodup_set_of_no_other hnd (by
            intro i hi hne hgot
            refine saveEdit_no_other hb i hi hne ?_
            exact hgot)
      · exact ⟨hlo, hhi, hnd⟩

/-- Witness for C10 on the default two-option list. -/
theorem editor_mutations_preserve_invariant_witness :
    editorInvariant (addOption ["A", "B"] "C") ∧
    editorInvariant (removeOption ["A", "B"] 0) ∧
    editorInvariant (saveEdit ["A", "B"] (some 0) "B") :=
  editor_mutations_preserve_invariant ["A", "B"] "C" 0 (some 0) "B" (by decide)
